import Mathlib

/-
Verification development for the NumberConverter class of convertNumbers.py.

Python strings are modelled as lists of characters (`List Char`).  The
magnitude-conversion `while` loops of `convert_to_binary` and
`convert_to_hex` are embedded with an explicit fuel argument that is
instantiated with the loop variable's initial value; the lemma
`binLoop_congr` (resp. `hexLoop_congr`) shows that any fuel of at least the
initial value yields the same result, which is the termination argument for
the loops.
-/

/-- Fuel-indexed form of the magnitude loop of `convert_to_binary`
(`while n > 0: binary_digits.append(str(n % 2)); n = n // 2`).
The resulting list is in append order, i.e. least significant digit first. -/
def binLoop : Nat → Nat → List Char
  | 0, _ => []
  | fuel + 1, n =>
    if n = 0 then []
    else (if n % 2 = 0 then '0' else '1') :: binLoop fuel (n / 2)

/-- The digit list collected by the magnitude loop of `convert_to_binary`,
least significant digit first (the Python code reverses it afterwards). -/
def binary_digits (n : Nat) : List Char := binLoop n n

/-- Python `str.zfill` on a sign-free digit string: left-pad with `'0'`
to the requested width (a no-op when the string is already at least that
long). -/
def zfill (s : List Char) (width : Nat) : List Char :=
  List.replicate (width - s.length) '0' ++ s

/-- Python slice `s[-k:]` as used in `__binary_add_one`'s
`''.join(binary_list)[-length:]`: the last `k` characters, except that for
`k = 0` Python's `s[-0:]` is the whole string. -/
def takeLastPy (s : List Char) (k : Nat) : List Char :=
  if k = 0 then s else s.drop (s.length - k)

/-- The carry loop of `__binary_add_one`, acting on the digit string
reversed (least significant digit first): a `'1'` with pending carry
becomes `'0'` and the carry persists; the first non-`'1'` digit is set to
`'1'` and the loop breaks (the rest of the string is kept as is); if the
carry survives the whole string, Python inserts a leading `'1'`, which on
the reversed string is a final `['1']`. -/
def addOneRevBin : List Char → List Char
  | [] => ['1']
  | b :: rest => if b = '1' then '0' :: addOneRevBin rest else '1' :: rest

/-- `__binary_add_one`: add one to a binary string, keeping only the last
`len(binary)` characters of the outcome (`''.join(binary_list)[-length:]`). -/
def binary_add_one (binary : List Char) : List Char :=
  takeLastPy ((addOneRevBin binary.reverse).reverse) binary.length

/-- The digit inversion of `__twos_complement`:
`''.join('1' if b == '0' else '0' for b in binary)`. -/
def invert_digits (binary : List Char) : List Char :=
  binary.map (fun b => if b = '0' then '1' else '0')

/-- `__twos_complement`: invert the digits, add one, and `zfill` the result
to the desired number of bits. -/
def twos_complement (binary : List Char) (bits : Nat) : List Char :=
  zfill (binary_add_one (invert_digits binary)) bits

/-- `convert_to_binary`: `'0'` for zero; for positive numbers the raw
magnitude digits (most significant first, no padding); for negative numbers
the magnitude digits are `zfill`ed to `bits` and passed through
`__twos_complement`. -/
def convert_to_binary (number : Int) (bits : Nat) : List Char :=
  if number = 0 then ['0']
  else
    if number < 0 then
      twos_complement (zfill (binary_digits number.natAbs).reverse bits) bits
    else (binary_digits number.natAbs).reverse

/-- The constant `hex_digits = '0123456789ABCDEF'`. -/
def hex_digits : List Char :=
  ['0', '1', '2', '3', '4', '5', '6', '7', '8', '9', 'A', 'B', 'C', 'D', 'E', 'F']

/-- Python `hex_digits[i]` (in the code `i` is always in range). -/
def hexCharAt (i : Nat) : Char := hex_digits.getD i '0'

/-- Python `hex_digits.index(c)`: the position of `c` in
`'0123456789ABCDEF'` (16 when `c` is not a hex digit; Python would raise
there, a situation the program never creates). -/
def hexIndex (c : Char) : Nat := hex_digits.indexOf c

/-- Fuel-indexed form of the magnitude loop of `convert_to_hex`
(`while n > 0: hex_string = hex_digits[n % 16] + hex_string; n = n // 16`),
with the accumulator holding the digits already prepended. -/
def hexLoop : Nat → Nat → List Char → List Char
  | 0, _, acc => acc
  | fuel + 1, n, acc =>
    if n = 0 then acc
    else hexLoop fuel (n / 16) (hexCharAt (n % 16) :: acc)

/-- The magnitude hex string built by `convert_to_hex`'s loop, most
significant digit first. -/
def hexMag (n : Nat) : List Char := hexLoop n n []

/-- Python `str.rjust`: left-pad with the fill character to the requested
width (a no-op when the string is already at least that long). -/
def rjust (s : List Char) (width : Nat) (fill : Char) : List Char :=
  List.replicate (width - s.length) fill ++ s

/-- The nibble inversion of `convert_to_hex`'s negative branch:
`''.join(hex_digits[15 - hex_digits.index(digit)] for digit in hex_string)`. -/
def invert_hex (s : List Char) : List Char :=
  s.map (fun digit => hexCharAt (15 - hexIndex digit))

/-- The carry loop of `__add_one_to_hex`, acting on the digit string
reversed (least significant digit first), with the carry as an explicit
argument.  An overflowing digit becomes `'0'` with the carry kept; an
absorbing digit becomes its successor with the carry cleared; with no carry
digits are copied.  No digit is ever added: a carry surviving the last
digit is dropped. -/
def addOneRevHex : List Char → Nat → List Char
  | [], _ => []
  | digit :: rest, carry =>
    if carry = 0 then digit :: addOneRevHex rest 0
    else
      if 16 ≤ hexIndex digit + carry then '0' :: addOneRevHex rest 1
      else hexCharAt (hexIndex digit + carry) :: addOneRevHex rest 0

/-- `__add_one_to_hex`: add one to a hex string with carry propagation. -/
def add_one_to_hex (s : List Char) : List Char :=
  (addOneRevHex s.reverse 1).reverse

/-- `convert_to_hex`: `'0'` for zero; for positive numbers the raw
magnitude hex digits; for negative numbers the magnitude is `rjust`ed with
`'0'` to 10 digits, each digit inverted, one added, and the result
`rjust`ed with `'F'` to 10 digits. -/
def convert_to_hex (number : Int) : List Char :=
  if number = 0 then ['0']
  else
    if number < 0 then
      rjust (add_one_to_hex (invert_hex (rjust (hexMag number.natAbs) 10 '0'))) 10 'F'
    else hexMag number.natAbs

/-! ### Semantics of digit strings (specification side) -/

/-- Numeric value of one binary character. -/
def bitVal (c : Char) : Nat := if c = '1' then 1 else 0

/-- Value of a binary digit string, most significant digit first. -/
def binToNat (s : List Char) : Nat := s.foldl (fun a c => 2 * a + bitVal c) 0

/-- Value of a hex digit string, most significant digit first. -/
def hexToNat (s : List Char) : Nat := s.foldl (fun a c => 16 * a + hexIndex c) 0

/-- All characters of the string are binary digits. -/
def allBin (s : List Char) : Prop := ∀ c ∈ s, c = '0' ∨ c = '1'

/-- All characters of the string are hex digits. -/
def allHex (s : List Char) : Prop := ∀ c ∈ s, hexIndex c < 16

/-- Reading a binary string as a two's-complement number whose width is the
string's length: values with the top bit set are shifted down by `2^length`. -/
def twosDecode (s : List Char) : Int :=
  if binToNat s < 2 ^ (s.length - 1) then (binToNat s : Int)
  else (binToNat s : Int) - 2 ^ s.length

/-- Reading a hex string as a 40-bit two's-complement number. -/
def hexTwosDecode40 (s : List Char) : Int :=
  if hexToNat s < 2 ^ 39 then (hexToNat s : Int)
  else (hexToNat s : Int) - 2 ^ 40

/-! ### The loader (`__init__`, `__validate_file_exists`, `__validate_input`,
`__load_data`) -/

/-- Python `str.strip()`: remove leading and trailing whitespace. -/
def pyStrip (s : List Char) : List Char :=
  ((s.dropWhile Char.isWhitespace).reverse.dropWhile Char.isWhitespace).reverse

/-- Value of a decimal digit string. -/
def digitsVal (ds : List Char) : Nat :=
  ds.foldl (fun a c => 10 * a + (c.toNat - 48)) 0

/-- `__validate_input`: model of Python `int(line.strip())` returning the
parsed integer, or `none` where Python raises `ValueError` — an optional
sign followed by a nonempty run of decimal digits. -/
def validate_input (line : List Char) : Option Int :=
  match pyStrip line with
  | [] => none
  | '-' :: ds =>
    if ds ≠ [] ∧ ds.all Char.isDigit then some (-(digitsVal ds : Int)) else none
  | '+' :: ds =>
    if ds ≠ [] ∧ ds.all Char.isDigit then some ((digitsVal ds : Int)) else none
  | ds => if ds.all Char.isDigit then some ((digitsVal ds : Int)) else none

/-- The state of a `NumberConverter` object: the stored path, the parsed
integers and the rejected lines with their 0-based indices. -/
structure NumberConverter where
  file_path : String
  data : List Int
  line_errors : List (Nat × List Char)
deriving DecidableEq

/-- The classification loop of `__load_data`: each line either parses and
its value is appended to `data`, or the pair `(index, raw line)` is
appended to `line_errors`. -/
def classifyLines : Nat → List (List Char) → List Int × List (Nat × List Char)
  | _, [] => ([], [])
  | i, line :: rest =>
    let r := classifyLines (i + 1) rest
    match validate_input line with
    | some number => (number :: r.1, r.2)
    | none => (r.1, (i, line) :: r.2)

/-- `__init__` together with `__load_data`: the file system is modelled as
`none` (the path is not an existing file, `__validate_file_exists` raises
`FileNotFoundError`) or `some lines`.  The result is the object state when
the constructor returns or raises, paired with the raised message if any. -/
def NumberConverter.construct (path : String) (fs : Option (List (List Char))) :
    NumberConverter × Option String :=
  match fs with
  | none => (⟨path, [], []⟩, some ("The file " ++ path ++ " does not exist."))
  | some lines =>
    let r := classifyLines 0 lines
    (⟨path, r.1, r.2⟩, none)

/-- The method `convert_to_binary` viewed as a state transformer on the
object: its body reads no field and assigns no field of `self`. -/
def NumberConverter.convert_to_binary_m (s : NumberConverter) (number : Int)
    (bits : Nat) : List Char × NumberConverter :=
  (convert_to_binary number bits, s)

/-- The method `convert_to_hex` viewed as a state transformer on the
object: its body reads no field and assigns no field of `self`. -/
def NumberConverter.convert_to_hex_m (s : NumberConverter) (number : Int) :
    List Char × NumberConverter :=
  (convert_to_hex number, s)

/-! ### Fueled, `Option`-valued variants of the two conversion loops.
`none` means the fuel ran out before the loop condition `n > 0` became
false; termination of the source loops is the statement that enough fuel
always exists. -/

/-- `binLoop` with explicit failure when the fuel runs out. -/
def binLoopO : Nat → Nat → Option (List Char)
  | 0, n => if n = 0 then some [] else none
  | fuel + 1, n =>
    if n = 0 then some []
    else (binLoopO fuel (n / 2)).map
      (fun r => (if n % 2 = 0 then '0' else '1') :: r)

/-- `hexLoop` with explicit failure when the fuel runs out. -/
def hexLoopO : Nat → Nat → List Char → Option (List Char)
  | 0, n, acc => if n = 0 then some acc else none
  | fuel + 1, n, acc =>
    if n = 0 then some acc
    else hexLoopO fuel (n / 16) (hexCharAt (n % 16) :: acc)

/-- `convert_to_binary` with a fueled magnitude loop. -/
def convert_to_binary_fuel (fuel : Nat) (number : Int) (bits : Nat) :
    Option (List Char) :=
  if number = 0 then some ['0']
  else (binLoopO fuel number.natAbs).map (fun ds =>
    if number < 0 then twos_complement (zfill ds.reverse bits) bits
    else ds.reverse)

/-- `convert_to_hex` with a fueled magnitude loop. -/
def convert_to_hex_fuel (fuel : Nat) (number : Int) : Option (List Char) :=
  if number = 0 then some ['0']
  else (hexLoopO fuel number.natAbs []).map (fun hs =>
    if number < 0 then rjust (add_one_to_hex (invert_hex (rjust hs 10 '0'))) 10 'F'
    else hs)

/-! ### Basic lemmas on the binary magnitude loop -/

theorem binLoop_congr :
    ∀ f1 f2 n, n ≤ f1 → n ≤ f2 → binLoop f1 n = binLoop f2 n := by
  intro f1
  induction f1 with
  | zero =>
    intro f2 n h1 _
    have hn : n = 0 := Nat.le_zero.mp h1
    subst hn
    cases f2 <;> simp [binLoop]
  | succ f ih =>
    intro f2 n h1 h2
    cases f2 with
    | zero =>
      have hn : n = 0 := Nat.le_zero.mp h2
      subst hn
      simp [binLoop]
    | succ g =>
      by_cases hn : n = 0
      · simp [binLoop, hn]
      · have hdiv : n / 2 < n := Nat.div_lt_self (Nat.pos_of_ne_zero hn) (by omega)
        simp only [binLoop, if_neg hn]
        rw [ih g (n / 2) (by omega) (by omega)]

theorem binary_digits_eq (n : Nat) :
    binary_digits n =
      if n = 0 then []
      else (if n % 2 = 0 then '0' else '1') :: binary_digits (n / 2) := by
  by_cases hn : n = 0
  · subst hn
    simp [binary_digits, binLoop]
  · obtain ⟨k, rfl⟩ : ∃ k, n = k + 1 := ⟨n - 1, by omega⟩
    have hdiv : (k + 1) / 2 ≤ k := by omega
    simp only [binary_digits, binLoop, if_neg hn]
    rw [binLoop_congr k ((k + 1) / 2) ((k + 1) / 2) hdiv (Nat.le_refl _)]

/-! ### Value semantics of binary strings -/

theorem bitVal_zero_char : bitVal '0' = 0 := rfl

theorem bitVal_one_char : bitVal '1' = 1 := rfl

/-- Value of a binary digit string, least significant digit first. -/
def vLSB (s : List Char) : Nat := s.foldr (fun c a => 2 * a + bitVal c) 0

theorem vLSB_nil : vLSB [] = 0 := rfl

theorem vLSB_cons (c : Char) (s : List Char) :
    vLSB (c :: s) = 2 * vLSB s + bitVal c := rfl

theorem binToNat_reverse (s : List Char) : binToNat s.reverse = vLSB s := by
  simp [binToNat, vLSB, List.foldl_reverse]

theorem vLSB_binary_digits (n : Nat) : vLSB (binary_digits n) = n := by
  induction n using Nat.strong_induction_on with
  | _ n ih =>
    rw [binary_digits_eq]
    by_cases hn : n = 0
    · simp [hn, vLSB_nil]
    · have hdiv : n / 2 < n := Nat.div_lt_self (Nat.pos_of_ne_zero hn) (by omega)
      rw [if_neg hn, vLSB_cons, ih (n / 2) hdiv]
      rcases Nat.mod_two_eq_zero_or_one n with h2 | h2 <;>
        simp [h2, bitVal_zero_char, bitVal_one_char] <;> omega

theorem binToNat_nil : binToNat [] = 0 := rfl

theorem binFold_shift (s : List Char) :
    ∀ a : Nat, s.foldl (fun a c => 2 * a + bitVal c) a = a * 2 ^ s.length + binToNat s := by
  induction s with
  | nil => intro a; simp [binToNat]
  | cons c t ih =>
    intro a
    have h1 : binToNat (c :: t) = bitVal c * 2 ^ t.length + binToNat t := by
      show List.foldl _ (2 * 0 + bitVal c) t = _
      rw [ih (2 * 0 + bitVal c)]
      ring_nf
    show List.foldl _ (2 * a + bitVal c) t = a * 2 ^ (c :: t).length + binToNat (c :: t)
    rw [ih (2 * a + bitVal c), h1, List.length_cons, pow_succ]
    ring

theorem binToNat_cons (c : Char) (t : List Char) :
    binToNat (c :: t) = bitVal c * 2 ^ t.length + binToNat t := by
  show List.foldl _ (2 * 0 + bitVal c) t = _
  rw [binFold_shift t (2 * 0 + bitVal c)]
  ring_nf

theorem binToNat_append (s t : List Char) :
    binToNat (s ++ t) = binToNat s * 2 ^ t.length + binToNat t := by
  show List.foldl _ 0 (s ++ t) = _
  rw [List.foldl_append]
  exact binFold_shift t (binToNat s)

theorem allBin_cons {c : Char} {t : List Char} :
    allBin (c :: t) ↔ (c = '0' ∨ c = '1') ∧ allBin t := by
  simp [allBin]

theorem binToNat_lt {s : List Char} (h : allBin s) :
    binToNat s < 2 ^ s.length := by
  induction s with
  | nil => simp [binToNat_nil]
  | cons c t ih =>
    obtain ⟨hc, ht⟩ := allBin_cons.mp h
    have hlt := ih ht
    rw [binToNat_cons, List.length_cons, pow_succ]
    rcases hc with hc | hc <;> subst hc <;>
      simp only [bitVal_zero_char, bitVal_one_char] <;> omega

theorem binary_digits_allBin (n : Nat) : allBin (binary_digits n) := by
  induction n using Nat.strong_induction_on with
  | _ n ih =>
    rw [binary_digits_eq]
    by_cases hn : n = 0
    · simp [hn, allBin]
    · have hdiv : n / 2 < n := Nat.div_lt_self (Nat.pos_of_ne_zero hn) (by omega)
      rw [if_neg hn, allBin_cons]
      refine ⟨?_, ih (n / 2) hdiv⟩
      by_cases h2 : n % 2 = 0 <;> simp [h2]

theorem binary_digits_length_le {n k : Nat} (h : n < 2 ^ k) :
    (binary_digits n).length ≤ k := by
  induction k generalizing n with
  | zero =>
    have hn : n = 0 := by simpa using h
    simp [hn, binary_digits_eq]
  | succ k ih =>
    rw [binary_digits_eq]
    by_cases hn : n = 0
    · simp [hn]
    · have hdiv : n / 2 < 2 ^ k := by
        rw [pow_succ] at h
        omega
      rw [if_neg hn, List.length_cons]
      exact Nat.succ_le_succ (ih hdiv)

theorem lt_two_pow_length (n : Nat) : n < 2 ^ (binary_digits n).length := by
  induction n using Nat.strong_induction_on with
  | _ n ih =>
    rw [binary_digits_eq]
    by_cases hn : n = 0
    · simp [hn]
    · have hdiv : n / 2 < n := Nat.div_lt_self (Nat.pos_of_ne_zero hn) (by omega)
      have hrec := ih (n / 2) hdiv
      rw [if_neg hn, List.length_cons, pow_succ]
      omega

theorem two_pow_pred_le {n : Nat} (h : 0 < n) :
    2 ^ ((binary_digits n).length - 1) ≤ n := by
  induction n using Nat.strong_induction_on with
  | _ n ih =>
    rw [binary_digits_eq, if_neg (Nat.pos_iff_ne_zero.mp h), List.length_cons]
    by_cases h2 : n / 2 = 0
    · have hn1 : n = 1 := by omega
      simp [hn1, h2, binary_digits_eq]
    · have hdiv : n / 2 < n := Nat.div_lt_self h (by omega)
      have hrec := ih (n / 2) hdiv (Nat.pos_of_ne_zero h2)
      have hlen : 0 < (binary_digits (n / 2)).length := by
        rw [binary_digits_eq, if_neg h2]
        simp
      have hstep : 2 ^ (binary_digits (n / 2)).length ≤ 2 * (n / 2) := by
        calc 2 ^ (binary_digits (n / 2)).length
            = 2 * 2 ^ ((binary_digits (n / 2)).length - 1) := by
              rw [← pow_succ']
              congr 1
              omega
          _ ≤ 2 * (n / 2) := by omega
      have hle : 2 * (n / 2) ≤ n := by omega
      simp only [Nat.add_sub_cancel]
      omega

theorem binary_digits_ne_nil {n : Nat} (h : 0 < n) : binary_digits n ≠ [] := by
  rw [binary_digits_eq, if_neg (Nat.pos_iff_ne_zero.mp h)]
  simp

theorem binary_digits_reverse_head {n : Nat} (h : 0 < n) :
    (binary_digits n).reverse.head? = some '1' := by
  induction n using Nat.strong_induction_on with
  | _ n ih =>
    rw [binary_digits_eq, if_neg (Nat.pos_iff_ne_zero.mp h), List.reverse_cons]
    by_cases h2 : n / 2 = 0
    · have hn1 : n = 1 := by omega
      subst hn1
      simp [binary_digits_eq]
    · have hdiv : n / 2 < n := Nat.div_lt_self h (by omega)
      have hrec := ih (n / 2) hdiv (Nat.pos_of_ne_zero h2)
      cases hrev : (binary_digits (n / 2)).reverse with
      | nil => rw [hrev] at hrec; simp at hrec
      | cons a t =>
        rw [hrev] at hrec
        simp only [List.head?_cons, Option.some.injEq] at hrec
        subst hrec
        simp

/-! ### Padding, inversion and add-one -/

theorem zfill_length (s : List Char) (w : Nat) :
    (zfill s w).length = max w s.length := by
  simp [zfill]
  omega

theorem binToNat_replicate_zero (k : Nat) :
    binToNat (List.replicate k '0') = 0 := by
  induction k with
  | zero => rfl
  | succ k ih =>
    rw [List.replicate_succ, binToNat_cons, ih, bitVal_zero_char]
    ring

theorem zfill_binToNat (s : List Char) (w : Nat) :
    binToNat (zfill s w) = binToNat s := by
  rw [zfill, binToNat_append, binToNat_replicate_zero]
  ring

theorem zfill_allBin {s : List Char} (h : allBin s) (w : Nat) :
    allBin (zfill s w) := by
  intro c hc
  rcases List.mem_append.mp hc with hc | hc
  · left
    exact (List.eq_of_mem_replicate hc)
  · exact h c hc

theorem invert_digits_length (s : List Char) :
    (invert_digits s).length = s.length := by
  simp [invert_digits]

theorem invert_digits_allBin (s : List Char) : allBin (invert_digits s) := by
  intro c hc
  simp only [invert_digits, List.mem_map] at hc
  obtain ⟨b, _, rfl⟩ := hc
  by_cases hb : b = '0' <;> simp [hb]

theorem binToNat_invert {s : List Char} (h : allBin s) :
    binToNat (invert_digits s) = 2 ^ s.length - 1 - binToNat s := by
  induction s with
  | nil => rfl
  | cons c t ih =>
    obtain ⟨hc, ht⟩ := allBin_cons.mp h
    have hvt := binToNat_lt ht
    have hpos : 0 < 2 ^ t.length := pow_pos (by norm_num) t.length
    have h1 : invert_digits (c :: t) =
        (if c = '0' then '1' else '0') :: invert_digits t := rfl
    rw [h1, binToNat_cons, binToNat_cons, invert_digits_length, ih ht,
      List.length_cons, pow_succ]
    rcases hc with rfl | rfl
    · have e1 : bitVal (if '0' = '0' then '1' else '0') = 1 := rfl
      rw [e1, bitVal_zero_char]
      omega
    · have e2 : bitVal (if '1' = '0' then '1' else '0') = 0 := rfl
      rw [e2, bitVal_one_char]
      omega

theorem vLSB_addOneRevBin {l : List Char} (h : allBin l) :
    vLSB (addOneRevBin l) = vLSB l + 1 := by
  induction l with
  | nil => rfl
  | cons b r ih =>
    obtain ⟨hb, hr⟩ := allBin_cons.mp h
    rcases hb with rfl | rfl
    · have h1 : addOneRevBin ('0' :: r) = '1' :: r := rfl
      rw [h1, vLSB_cons, vLSB_cons, bitVal_zero_char, bitVal_one_char]
    · have h1 : addOneRevBin ('1' :: r) = '0' :: addOneRevBin r := rfl
      rw [h1, vLSB_cons, vLSB_cons, ih hr, bitVal_zero_char, bitVal_one_char]
      ring

theorem addOneRevBin_length (l : List Char) :
    l.length ≤ (addOneRevBin l).length ∧
      (addOneRevBin l).length ≤ l.length + 1 := by
  induction l with
  | nil => simp [addOneRevBin]
  | cons b r ih =>
    by_cases hb : b = '1'
    · simp only [addOneRevBin, if_pos hb, List.length_cons]
      omega
    · simp only [addOneRevBin, if_neg hb, List.length_cons]
      omega

theorem addOneRevBin_allBin {l : List Char} (h : allBin l) :
    allBin (addOneRevBin l) := by
  induction l with
  | nil =>
    intro c hc
    simp only [addOneRevBin, List.mem_singleton] at hc
    exact Or.inr hc
  | cons b r ih =>
    obtain ⟨hb, hr⟩ := allBin_cons.mp h
    by_cases hb1 : b = '1'
    · simp only [addOneRevBin, if_pos hb1]
      exact allBin_cons.mpr ⟨Or.inl rfl, ih hr⟩
    · simp only [addOneRevBin, if_neg hb1]
      exact allBin_cons.mpr ⟨Or.inr rfl, hr⟩

theorem allBin_reverse {s : List Char} (h : allBin s) : allBin s.reverse := by
  intro c hc
  exact h c (List.mem_reverse.mp hc)

theorem binToNat_drop {s : List Char} (h : allBin s) {j : Nat}
    (_hj : j ≤ s.length) :
    binToNat (s.drop j) = binToNat s % 2 ^ (s.length - j) := by
  have hdl : (s.drop j).length = s.length - j := by simp
  have hda : allBin (s.drop j) := fun c hc => h c (List.mem_of_mem_drop hc)
  have hlt : binToNat (s.drop j) < 2 ^ (s.length - j) := by
    rw [← hdl]
    exact binToNat_lt hda
  have key : binToNat s = binToNat (s.take j) * 2 ^ (s.length - j)
      + binToNat (s.drop j) := by
    conv_lhs => rw [← List.take_append_drop j s]
    rw [binToNat_append, hdl]
  rw [key, Nat.add_comm, Nat.add_mul_mod_self_right, Nat.mod_eq_of_lt hlt]

theorem binary_add_one_spec {s : List Char} (hbin : allBin s) (hne : s ≠ []) :
    (binary_add_one s).length = s.length ∧
      binToNat (binary_add_one s) = (binToNat s + 1) % 2 ^ s.length ∧
      allBin (binary_add_one s) := by
  have hk : 0 < s.length := List.length_pos.mpr hne
  have hrevbin : allBin s.reverse := allBin_reverse hbin
  have hr0bin : allBin (addOneRevBin s.reverse) := addOneRevBin_allBin hrevbin
  have hr0rev : allBin (addOneRevBin s.reverse).reverse := allBin_reverse hr0bin
  have hval : binToNat (addOneRevBin s.reverse).reverse = binToNat s + 1 := by
    rw [binToNat_reverse, vLSB_addOneRevBin hrevbin, ← binToNat_reverse s.reverse,
      List.reverse_reverse]
  have hlen := addOneRevBin_length s.reverse
  rw [List.length_reverse] at hlen
  have hks : s.length ≤ (addOneRevBin s.reverse).reverse.length := by
    rw [List.length_reverse]
    exact hlen.1
  have h0 : binary_add_one s =
      (addOneRevBin s.reverse).reverse.drop
        ((addOneRevBin s.reverse).reverse.length - s.length) := by
    rw [binary_add_one, takeLastPy, if_neg (by omega)]
  have hjle : (addOneRevBin s.reverse).reverse.length - s.length
      ≤ (addOneRevBin s.reverse).reverse.length := by omega
  have hsub : (addOneRevBin s.reverse).reverse.length -
      ((addOneRevBin s.reverse).reverse.length - s.length) = s.length := by
    omega
  refine ⟨?_, ?_, ?_⟩
  · rw [h0, List.length_drop, hsub]
  · rw [h0, binToNat_drop hr0rev hjle, hsub, hval]
  · rw [h0]
    intro c hc
    exact hr0rev c (List.mem_of_mem_drop hc)

theorem twos_complement_spec {s : List Char} (hbin : allBin s) (hne : s ≠ [])
    (bits : Nat) :
    (twos_complement s bits).length = max bits s.length ∧
      binToNat (twos_complement s bits)
        = (2 ^ s.length - binToNat s) % 2 ^ s.length ∧
      allBin (twos_complement s bits) := by
  have hinvne : invert_digits s ≠ [] := by
    intro hcon
    have := congrArg List.length hcon
    rw [invert_digits_length] at this
    exact hne (List.length_eq_zero.mp (by simpa using this))
  obtain ⟨hlen1, hval1, hbin1⟩ :=
    binary_add_one_spec (invert_digits_allBin s) hinvne
  have hvs := binToNat_lt hbin
  have hvi := binToNat_invert hbin
  refine ⟨?_, ?_, ?_⟩
  · rw [twos_complement, zfill_length, hlen1, invert_digits_length]
  · rw [twos_complement, zfill_binToNat, hval1, hvi, invert_digits_length]
    congr 1
    omega
  · exact zfill_allBin hbin1 bits

theorem convert_to_binary_neg_spec {number : Int} (hneg : number < 0)
    (bits : Nat) :
    (convert_to_binary number bits).length
        = max bits (binary_digits number.natAbs).length ∧
      binToNat (convert_to_binary number bits)
        = 2 ^ max bits (binary_digits number.natAbs).length - number.natAbs ∧
      allBin (convert_to_binary number bits) := by
  have hne0 : number ≠ 0 := ne_of_lt hneg
  have hV : 0 < number.natAbs := Int.natAbs_pos.mpr hne0
  have hmagbin : allBin (binary_digits number.natAbs).reverse :=
    allBin_reverse (binary_digits_allBin _)
  have hmagval : binToNat (binary_digits number.natAbs).reverse
      = number.natAbs := by
    rw [binToNat_reverse, vLSB_binary_digits]
  have hm1 : 0 < (binary_digits number.natAbs).length :=
    List.length_pos.mpr (binary_digits_ne_nil hV)
  have hs1bin : allBin (zfill (binary_digits number.natAbs).reverse bits) :=
    zfill_allBin hmagbin bits
  have hs1len : (zfill (binary_digits number.natAbs).reverse bits).length
      = max bits (binary_digits number.natAbs).length := by
    rw [zfill_length, List.length_reverse]
  have hs1ne : zfill (binary_digits number.natAbs).reverse bits ≠ [] := by
    have hpos : 0 < (zfill (binary_digits number.natAbs).reverse bits).length := by
      rw [hs1len]
      exact lt_of_lt_of_le hm1 (le_max_right _ _)
    intro hcon
    rw [hcon] at hpos
    simp at hpos
  have hs1val : binToNat (zfill (binary_digits number.natAbs).reverse bits)
      = number.natAbs := by
    rw [zfill_binToNat, hmagval]
  obtain ⟨hlen2, hval2, hbin2⟩ := twos_complement_spec hs1bin hs1ne bits
  have hunfold : convert_to_binary number bits =
      twos_complement (zfill (binary_digits number.natAbs).reverse bits) bits := by
    rw [convert_to_binary, if_neg hne0, if_pos hneg]
  have hVlt : number.natAbs < 2 ^ max bits (binary_digits number.natAbs).length := by
    have h1 := lt_two_pow_length number.natAbs
    have h2 : (2 : Nat) ^ (binary_digits number.natAbs).length
        ≤ 2 ^ max bits (binary_digits number.natAbs).length :=
      Nat.pow_le_pow_right (by norm_num) (le_max_right _ _)
    omega
  have hmax : max bits (zfill (binary_digits number.natAbs).reverse bits).length
      = max bits (binary_digits number.natAbs).length := by
    rw [hs1len, ← max_assoc, max_self]
  refine ⟨?_, ?_, ?_⟩
  · rw [hunfold, hlen2, hmax]
  · rw [hunfold, hval2, hs1val, hs1len,
      Nat.mod_eq_of_lt (by omega)]
  · rw [hunfold]
    exact hbin2

/-! ### The hex magnitude loop -/

theorem hexLoop_congr :
    ∀ f1 f2 n acc, n ≤ f1 → n ≤ f2 → hexLoop f1 n acc = hexLoop f2 n acc := by
  intro f1
  induction f1 with
  | zero =>
    intro f2 n acc h1 _
    have hn : n = 0 := Nat.le_zero.mp h1
    subst hn
    cases f2 <;> simp [hexLoop]
  | succ f ih =>
    intro f2 n acc h1 h2
    cases f2 with
    | zero =>
      have hn : n = 0 := Nat.le_zero.mp h2
      subst hn
      simp [hexLoop]
    | succ g =>
      by_cases hn : n = 0
      · simp [hexLoop, hn]
      · have hdiv : n / 16 < n := Nat.div_lt_self (Nat.pos_of_ne_zero hn) (by omega)
        simp only [hexLoop, if_neg hn]
        rw [ih g (n / 16) _ (by omega) (by omega)]

theorem hexLoop_shift :
    ∀ fuel n acc, hexLoop fuel n acc = hexLoop fuel n [] ++ acc := by
  intro fuel
  induction fuel with
  | zero => intro n acc; simp [hexLoop]
  | succ f ih =>
    intro n acc
    by_cases hn : n = 0
    · simp [hexLoop, hn]
    · simp only [hexLoop, if_neg hn]
      rw [ih (n / 16) (hexCharAt (n % 16) :: acc), ih (n / 16) [hexCharAt (n % 16)]]
      simp

theorem hexMag_eq (n : Nat) :
    hexMag n =
      if n = 0 then [] else hexMag (n / 16) ++ [hexCharAt (n % 16)] := by
  by_cases hn : n = 0
  · subst hn
    simp [hexMag, hexLoop]
  · obtain ⟨k, rfl⟩ : ∃ k, n = k + 1 := ⟨n - 1, by omega⟩
    have hdiv : (k + 1) / 16 ≤ k := by omega
    simp only [hexMag, hexLoop, if_neg hn]
    rw [hexLoop_congr k ((k + 1) / 16) ((k + 1) / 16) _ hdiv (Nat.le_refl _),
      hexLoop_shift]

theorem hexIndex_hexCharAt : ∀ r : Nat, r < 16 → hexIndex (hexCharAt r) = r := by
  decide

theorem hexIndex_zero_char : hexIndex '0' = 0 := by decide

theorem hexToNat_nil : hexToNat [] = 0 := rfl

theorem hexFold_shift (s : List Char) :
    ∀ a : Nat, s.foldl (fun a c => 16 * a + hexIndex c) a
      = a * 16 ^ s.length + hexToNat s := by
  induction s with
  | nil => intro a; simp [hexToNat]
  | cons c t ih =>
    intro a
    have h1 : hexToNat (c :: t) = hexIndex c * 16 ^ t.length + hexToNat t := by
      show List.foldl _ (16 * 0 + hexIndex c) t = _
      rw [ih (16 * 0 + hexIndex c)]
      ring_nf
    show List.foldl _ (16 * a + hexIndex c) t
        = a * 16 ^ (c :: t).length + hexToNat (c :: t)
    rw [ih (16 * a + hexIndex c), h1, List.length_cons, pow_succ]
    ring

theorem hexToNat_cons (c : Char) (t : List Char) :
    hexToNat (c :: t) = hexIndex c * 16 ^ t.length + hexToNat t := by
  show List.foldl _ (16 * 0 + hexIndex c) t = _
  rw [hexFold_shift t (16 * 0 + hexIndex c)]
  ring_nf

theorem hexToNat_append (s t : List Char) :
    hexToNat (s ++ t) = hexToNat s * 16 ^ t.length + hexToNat t := by
  show List.foldl _ 0 (s ++ t) = _
  rw [List.foldl_append]
  exact hexFold_shift t (hexToNat s)

theorem allHex_cons {c : Char} {t : List Char} :
    allHex (c :: t) ↔ hexIndex c < 16 ∧ allHex t := by
  simp [allHex]

theorem hexToNat_lt {s : List Char} (h : allHex s) :
    hexToNat s < 16 ^ s.length := by
  induction s with
  | nil => simp [hexToNat_nil]
  | cons c t ih =>
    obtain ⟨hc, ht⟩ := allHex_cons.mp h
    have hlt := ih ht
    rw [hexToNat_cons, List.length_cons, pow_succ]
    have : hexIndex c * 16 ^ t.length ≤ 15 * 16 ^ t.length :=
      Nat.mul_le_mul_right _ (by omega)
    omega

theorem hexToNat_hexMag (n : Nat) : hexToNat (hexMag n) = n := by
  induction n using Nat.strong_induction_on with
  | _ n ih =>
    rw [hexMag_eq]
    by_cases hn : n = 0
    · simp [hn, hexToNat_nil]
    · have hdiv : n / 16 < n := Nat.div_lt_self (Nat.pos_of_ne_zero hn) (by omega)
      rw [if_neg hn, hexToNat_append, ih (n / 16) hdiv]
      have hd : hexToNat [hexCharAt (n % 16)] = n % 16 := by
        rw [hexToNat_cons, hexToNat_nil,
          hexIndex_hexCharAt (n % 16) (Nat.mod_lt n (by omega))]
        simp
      rw [hd]
      simp only [List.length_cons, List.length_nil, pow_one]
      omega

theorem hexMag_allHex (n : Nat) : allHex (hexMag n) := by
  induction n using Nat.strong_induction_on with
  | _ n ih =>
    rw [hexMag_eq]
    by_cases hn : n = 0
    · simp [hn, allHex]
    · have hdiv : n / 16 < n := Nat.div_lt_self (Nat.pos_of_ne_zero hn) (by omega)
      rw [if_neg hn]
      intro c hc
      rcases List.mem_append.mp hc with hc | hc
      · exact ih (n / 16) hdiv c hc
      · rw [List.mem_singleton.mp hc]
        rw [hexIndex_hexCharAt (n % 16) (Nat.mod_lt n (by omega))]
        exact Nat.mod_lt n (by omega)

theorem hexMag_length_le {n k : Nat} (h : n < 16 ^ k) :
    (hexMag n).length ≤ k := by
  induction k generalizing n with
  | zero =>
    have hn : n = 0 := by simpa using h
    simp [hn, hexMag_eq]
  | succ k ih =>
    rw [hexMag_eq]
    by_cases hn : n = 0
    · simp [hn]
    · have hdiv : n / 16 < 16 ^ k := by
        rw [pow_succ] at h
        omega
      rw [if_neg hn, List.length_append, List.length_cons, List.length_nil]
      have := ih hdiv
      omega

theorem lt_sixteen_pow_length (n : Nat) : n < 16 ^ (hexMag n).length := by
  induction n using Nat.strong_induction_on with
  | _ n ih =>
    rw [hexMag_eq]
    by_cases hn : n = 0
    · simp [hn]
    · have hdiv : n / 16 < n := Nat.div_lt_self (Nat.pos_of_ne_zero hn) (by omega)
      have hrec := ih (n / 16) hdiv
      rw [if_neg hn, List.length_append, List.length_cons, List.length_nil,
        pow_succ]
      omega

theorem hexMag_ne_nil {n : Nat} (h : 0 < n) : hexMag n ≠ [] := by
  rw [hexMag_eq, if_neg (Nat.pos_iff_ne_zero.mp h)]
  simp

/-! ### rjust, nibble inversion and hex add-one -/

theorem rjust_length (s : List Char) (w : Nat) (f : Char) :
    (rjust s w f).length = max w s.length := by
  simp [rjust]
  omega

theorem rjust_eq_self {s : List Char} {w : Nat} (f : Char)
    (h : w ≤ s.length) : rjust s w f = s := by
  rw [rjust, Nat.sub_eq_zero_of_le h]
  simp

theorem hexToNat_replicate_zero (k : Nat) :
    hexToNat (List.replicate k '0') = 0 := by
  induction k with
  | zero => rfl
  | succ k ih =>
    rw [List.replicate_succ, hexToNat_cons, ih, hexIndex_zero_char]
    ring

theorem rjust_zero_hexToNat (s : List Char) (w : Nat) :
    hexToNat (rjust s w '0') = hexToNat s := by
  rw [rjust, hexToNat_append, hexToNat_replicate_zero]
  ring

theorem rjust_zero_allHex {s : List Char} (h : allHex s) (w : Nat) :
    allHex (rjust s w '0') := by
  intro c hc
  rcases List.mem_append.mp hc with hc | hc
  · rw [List.eq_of_mem_replicate hc, hexIndex_zero_char]
    omega
  · exact h c hc

theorem invert_hex_length (s : List Char) :
    (invert_hex s).length = s.length := by
  simp [invert_hex]

theorem invert_hex_allHex {s : List Char} (h : allHex s) :
    allHex (invert_hex s) := by
  intro c hc
  simp only [invert_hex, List.mem_map] at hc
  obtain ⟨d, hd, rfl⟩ := hc
  have hv : hexIndex d < 16 := h d hd
  rw [hexIndex_hexCharAt (15 - hexIndex d) (by omega)]
  omega

theorem hexToNat_invert {s : List Char} (h : allHex s) :
    hexToNat (invert_hex s) = 16 ^ s.length - 1 - hexToNat s := by
  induction s with
  | nil => rfl
  | cons c t ih =>
    obtain ⟨hc, ht⟩ := allHex_cons.mp h
    have hvt := hexToNat_lt ht
    have hpos : 0 < 16 ^ t.length := pow_pos (by norm_num) t.length
    have h1 : invert_hex (c :: t) = hexCharAt (15 - hexIndex c) :: invert_hex t := rfl
    rw [h1, hexToNat_cons, hexToNat_cons, invert_hex_length, ih ht,
      List.length_cons, pow_succ, hexIndex_hexCharAt (15 - hexIndex c) (by omega)]
    have hmul : hexIndex c * 16 ^ t.length ≤ 15 * 16 ^ t.length :=
      Nat.mul_le_mul_right _ (by omega)
    have hmul2 : (15 - hexIndex c) * 16 ^ t.length
        = 15 * 16 ^ t.length - hexIndex c * 16 ^ t.length := by
      rw [Nat.sub_mul]
    omega

/-- Value of a hex digit string, least significant digit first. -/
def hexVLSB (s : List Char) : Nat := s.foldr (fun c a => 16 * a + hexIndex c) 0

theorem hexVLSB_nil : hexVLSB [] = 0 := rfl

theorem hexVLSB_cons (c : Char) (s : List Char) :
    hexVLSB (c :: s) = 16 * hexVLSB s + hexIndex c := rfl

theorem hexToNat_reverse (s : List Char) : hexToNat s.reverse = hexVLSB s := by
  simp [hexToNat, hexVLSB, List.foldl_reverse]

theorem hexVLSB_lt {s : List Char} (h : allHex s) :
    hexVLSB s < 16 ^ s.length := by
  induction s with
  | nil => simp [hexVLSB_nil]
  | cons c t ih =>
    obtain ⟨hc, ht⟩ := allHex_cons.mp h
    have hlt := ih ht
    rw [hexVLSB_cons, List.length_cons, pow_succ]
    omega

theorem addOneRevHex_length (l : List Char) :
    ∀ carry, (addOneRevHex l carry).length = l.length := by
  induction l with
  | nil => intro carry; rfl
  | cons d r ih =>
    intro carry
    by_cases hc : carry = 0
    · simp only [addOneRevHex, if_pos hc, List.length_cons, ih 0]
    · by_cases h16 : 16 ≤ hexIndex d + carry
      · simp only [addOneRevHex, if_neg hc, if_pos h16, List.length_cons, ih 1]
      · simp only [addOneRevHex, if_neg hc, if_neg h16, List.length_cons, ih 0]

theorem addOneRevHex_zero (l : List Char) : addOneRevHex l 0 = l := by
  induction l with
  | nil => rfl
  | cons d r ih =>
    simp [addOneRevHex, ih]

theorem addOneRevHex_allHex {l : List Char} (h : allHex l) :
    ∀ carry, allHex (addOneRevHex l carry) := by
  induction l with
  | nil => intro carry c hc; simp [addOneRevHex] at hc
  | cons d r ih =>
    obtain ⟨hd, hr⟩ := allHex_cons.mp h
    intro carry
    by_cases hc : carry = 0
    · simp only [addOneRevHex, if_pos hc]
      exact allHex_cons.mpr ⟨hd, addOneRevHex_zero r ▸ ih hr 0⟩
    · by_cases h16 : 16 ≤ hexIndex d + carry
      · simp only [addOneRevHex, if_neg hc, if_pos h16]
        refine allHex_cons.mpr ⟨?_, ih hr 1⟩
        rw [hexIndex_zero_char]
        omega
      · simp only [addOneRevHex, if_neg hc, if_neg h16]
        refine allHex_cons.mpr ⟨?_, addOneRevHex_zero r ▸ ih hr 0⟩
        rw [hexIndex_hexCharAt (hexIndex d + carry) (by omega)]
        omega

theorem hexVLSB_addOneRevHex {l : List Char} (h : allHex l) :
    hexVLSB (addOneRevHex l 1) = (hexVLSB l + 1) % 16 ^ l.length := by
  induction l with
  | nil => rfl
  | cons d r ih =>
    obtain ⟨hd, hr⟩ := allHex_cons.mp h
    have hvr := hexVLSB_lt hr
    by_cases h16 : 16 ≤ hexIndex d + 1
    · have hd15 : hexIndex d = 15 := by omega
      have h1 : addOneRevHex (d :: r) 1 = '0' :: addOneRevHex r 1 := by
        simp only [addOneRevHex, if_neg (by omega : ¬(1 : Nat) = 0), if_pos h16]
      rw [h1, hexVLSB_cons, ih hr, hexIndex_zero_char, hexVLSB_cons,
        List.length_cons, hd15, pow_succ']
      have hnum : 16 * hexVLSB r + 15 + 1 = 16 * (hexVLSB r + 1) := by ring
      rw [hnum, Nat.mul_mod_mul_left]
      omega
    · have h1 : addOneRevHex (d :: r) 1
          = hexCharAt (hexIndex d + 1) :: addOneRevHex r 0 := by
        simp only [addOneRevHex, if_neg (by omega : ¬(1 : Nat) = 0), if_neg h16]
      rw [h1, addOneRevHex_zero, hexVLSB_cons, hexVLSB_cons,
        hexIndex_hexCharAt (hexIndex d + 1) (by omega), List.length_cons, pow_succ']
      have hlt : 16 * hexVLSB r + (hexIndex d + 1) < 16 * 16 ^ r.length := by
        omega
      rw [Nat.mod_eq_of_lt (by omega)]
      omega

theorem add_one_to_hex_length (s : List Char) :
    (add_one_to_hex s).length = s.length := by
  rw [add_one_to_hex, List.length_reverse, addOneRevHex_length, List.length_reverse]

theorem add_one_to_hex_allHex {s : List Char} (h : allHex s) :
    allHex (add_one_to_hex s) := by
  intro c hc
  rw [add_one_to_hex] at hc
  have hmem := List.mem_reverse.mp hc
  have hsrev : allHex s.reverse := fun x hx => h x (List.mem_reverse.mp hx)
  exact addOneRevHex_allHex hsrev 1 c hmem

theorem add_one_to_hex_toNat {s : List Char} (h : allHex s) :
    hexToNat (add_one_to_hex s) = (hexToNat s + 1) % 16 ^ s.length := by
  have hsrev : allHex s.reverse := fun x hx => h x (List.mem_reverse.mp hx)
  rw [add_one_to_hex, hexToNat_reverse, hexVLSB_addOneRevHex hsrev,
    List.length_reverse]
  congr 2
  rw [← hexToNat_reverse s.reverse, List.reverse_reverse]

/-! ### The negative branch of convert_to_hex -/

theorem convert_to_hex_neg_spec {number : Int} (hneg : number < 0) :
    (convert_to_hex number).length = max 10 (hexMag number.natAbs).length ∧
      hexToNat (convert_to_hex number)
        = 16 ^ max 10 (hexMag number.natAbs).length - number.natAbs ∧
      allHex (convert_to_hex number) ∧
      rjust (add_one_to_hex (invert_hex (rjust (hexMag number.natAbs) 10 '0'))) 10 'F'
        = add_one_to_hex (invert_hex (rjust (hexMag number.natAbs) 10 '0')) := by
  have hne0 : number ≠ 0 := ne_of_lt hneg
  have hV : 0 < number.natAbs := Int.natAbs_pos.mpr hne0
  have hs1hex : allHex (rjust (hexMag number.natAbs) 10 '0') :=
    rjust_zero_allHex (hexMag_allHex _) 10
  have hs1len : (rjust (hexMag number.natAbs) 10 '0').length
      = max 10 (hexMag number.natAbs).length := rjust_length _ _ _
  have hs1val : hexToNat (rjust (hexMag number.natAbs) 10 '0')
      = number.natAbs := by
    rw [rjust_zero_hexToNat, hexToNat_hexMag]
  have hihex : allHex (invert_hex (rjust (hexMag number.natAbs) 10 '0')) :=
    invert_hex_allHex hs1hex
  have hilen : (invert_hex (rjust (hexMag number.natAbs) 10 '0')).length
      = max 10 (hexMag number.natAbs).length := by
    rw [invert_hex_length, hs1len]
  have hival : hexToNat (invert_hex (rjust (hexMag number.natAbs) 10 '0'))
      = 16 ^ max 10 (hexMag number.natAbs).length - 1 - number.natAbs := by
    rw [hexToNat_invert hs1hex, hs1len, hs1val]
  have hVlt : number.natAbs < 16 ^ max 10 (hexMag number.natAbs).length := by
    have h1 := lt_sixteen_pow_length number.natAbs
    have h2 : (16 : Nat) ^ (hexMag number.natAbs).length
        ≤ 16 ^ max 10 (hexMag number.natAbs).length :=
      Nat.pow_le_pow_right (by norm_num) (le_max_right _ _)
    omega
  have halen : (add_one_to_hex (invert_hex (rjust (hexMag number.natAbs) 10 '0'))).length
      = max 10 (hexMag number.natAbs).length := by
    rw [add_one_to_hex_length, hilen]
  have haval : hexToNat (add_one_to_hex (invert_hex (rjust (hexMag number.natAbs) 10 '0')))
      = 16 ^ max 10 (hexMag number.natAbs).length - number.natAbs := by
    rw [add_one_to_hex_toNat hihex, hilen, hival]
    have hpos : 0 < 16 ^ max 10 (hexMag number.natAbs).length :=
      pow_pos (by norm_num) _
    rw [Nat.mod_eq_of_lt (by omega)]
    omega
  have hrj : rjust (add_one_to_hex (invert_hex (rjust (hexMag number.natAbs) 10 '0'))) 10 'F'
      = add_one_to_hex (invert_hex (rjust (hexMag number.natAbs) 10 '0')) := by
    apply rjust_eq_self
    rw [halen]
    exact le_max_left _ _
  have hunfold : convert_to_hex number =
      add_one_to_hex (invert_hex (rjust (hexMag number.natAbs) 10 '0')) := by
    rw [convert_to_hex, if_neg hne0, if_pos hneg, hrj]
  refine ⟨?_, ?_, ?_, hrj⟩
  · rw [hunfold, halen]
  · rw [hunfold, haval]
  · rw [hunfold]
    exact add_one_to_hex_allHex hihex

/-! ### The loader classification -/

theorem classifyLines_eq (i : Nat) (ls : List (List Char)) :
    classifyLines i ls =
      (ls.filterMap validate_input,
        (List.enumFrom i ls).filter (fun p => (validate_input p.2).isNone)) := by
  induction ls generalizing i with
  | nil => rfl
  | cons l rest ih =>
    cases hv : validate_input l with
    | none =>
      simp [classifyLines, ih (i + 1), List.filterMap_cons, hv, List.enumFrom]
    | some v =>
      simp [classifyLines, ih (i + 1), List.filterMap_cons, hv, List.enumFrom]

/-! ### Adequacy of the fueled loops -/

theorem binLoopO_adequate : ∀ fuel n, n ≤ fuel →
    binLoopO fuel n = some (binary_digits n) := by
  intro fuel
  induction fuel with
  | zero =>
    intro n h
    have hn : n = 0 := Nat.le_zero.mp h
    subst hn
    rfl
  | succ f ih =>
    intro n h
    by_cases hn : n = 0
    · subst hn
      simp [binLoopO, binary_digits, binLoop]
    · have hdiv : n / 2 < n := Nat.div_lt_self (Nat.pos_of_ne_zero hn) (by omega)
      have hrec := ih (n / 2) (by omega)
      simp only [binLoopO, if_neg hn, hrec]
      rw [binary_digits_eq n, if_neg hn]
      rfl

theorem hexLoopO_adequate : ∀ fuel n acc, n ≤ fuel →
    hexLoopO fuel n acc = some (hexLoop n n acc) := by
  intro fuel
  induction fuel with
  | zero =>
    intro n acc h
    have hn : n = 0 := Nat.le_zero.mp h
    subst hn
    rfl
  | succ f ih =>
    intro n acc h
    by_cases hn : n = 0
    · subst hn
      simp [hexLoopO, hexLoop]
    · have hdiv : n / 16 < n := Nat.div_lt_self (Nat.pos_of_ne_zero hn) (by omega)
      have hrec := ih (n / 16) (hexCharAt (n % 16) :: acc) (by omega)
      simp only [hexLoopO, if_neg hn, hrec]
      obtain ⟨k, rfl⟩ : ∃ k, n = k + 1 := ⟨n - 1, by omega⟩
      simp only [hexLoop, if_neg hn]
      rw [hexLoop_congr ((k + 1) / 16) k ((k + 1) / 16)
        (hexCharAt ((k + 1) % 16) :: acc) (Nat.le_refl _) (by omega)]

/-! ### Last helper lemmas -/

theorem eq_replicate_one {s : List Char} (hbin : allBin s)
    (hv : binToNat s = 2 ^ s.length - 1) :
    s = List.replicate s.length '1' := by
  induction s with
  | nil => rfl
  | cons c t ih =>
    obtain ⟨hc, ht⟩ := allBin_cons.mp hbin
    have hvt := binToNat_lt ht
    have hpos : 0 < 2 ^ t.length := pow_pos (by norm_num) t.length
    rw [binToNat_cons, List.length_cons, pow_succ] at hv
    rcases hc with rfl | rfl
    · rw [bitVal_zero_char] at hv
      exfalso
      omega
    · rw [bitVal_one_char] at hv
      have hvt1 : binToNat t = 2 ^ t.length - 1 := by omega
      rw [List.length_cons, List.replicate_succ, ← ih ht hvt1]

theorem classifyLines_length : ∀ (i : Nat) (ls : List (List Char)),
    (classifyLines i ls).1.length + (classifyLines i ls).2.length = ls.length := by
  intro i ls
  induction ls generalizing i with
  | nil => rfl
  | cons l rest ih =>
    have h1 := ih (i + 1)
    cases hv : validate_input l with
    | none =>
      have e : classifyLines i (l :: rest)
          = ((classifyLines (i + 1) rest).1,
              (i, l) :: (classifyLines (i + 1) rest).2) := by
        simp [classifyLines, hv]
      rw [e]
      simp only [List.length_cons]
      omega
    | some v =>
      have e : classifyLines i (l :: rest)
          = (v :: (classifyLines (i + 1) rest).1,
              (classifyLines (i + 1) rest).2) := by
        simp [classifyLines, hv]
      rw [e]
      simp only [List.length_cons]
      omega

/-! ### The claims -/

/-- C4: `convert_to_hex 255` is the string `FF`, and `convert_to_hex (-255)`
is a 10-character string whose value is the two's complement of 255 over 40
bits, namely `2 ^ 40 - 255` (its digits are `FFFFFFFF01`). -/
theorem c4_hex_255 :
    convert_to_hex 255 = ['F', 'F'] ∧
      convert_to_hex (-255) = ['F', 'F', 'F', 'F', 'F', 'F', 'F', 'F', '0', '1'] ∧
      (convert_to_hex (-255)).length = 10 ∧
      hexToNat (convert_to_hex (-255)) = 2 ^ 40 - 255 := by
  decide

/-- C5: for positive `n`, `convert_to_binary n bits` does not depend on
`bits` and is the standard unsigned binary representation of `n`: its
value is `n`, its digits are binary, and its leading digit is `'1'` (so
there is no leading zero). -/
theorem c5_positive_independent (n : Int) (hpos : 0 < n) (bits bits2 : Nat) :
    convert_to_binary n bits = convert_to_binary n bits2 ∧
      binToNat (convert_to_binary n bits) = n.natAbs ∧
      allBin (convert_to_binary n bits) ∧
      (convert_to_binary n bits).head? = some '1' := by
  have hne0 : n ≠ 0 := by omega
  have hnneg : ¬(n < 0) := by omega
  have hbranch : ∀ b : Nat,
      convert_to_binary n b = (binary_digits n.natAbs).reverse := by
    intro b
    rw [convert_to_binary, if_neg hne0, if_neg hnneg]
  have hVpos : 0 < n.natAbs := Int.natAbs_pos.mpr hne0
  refine ⟨by rw [hbranch bits, hbranch bits2], ?_, ?_, ?_⟩
  · rw [hbranch bits, binToNat_reverse, vLSB_binary_digits]
  · rw [hbranch bits]
    exact allBin_reverse (binary_digits_allBin _)
  · rw [hbranch bits]
    exact binary_digits_reverse_head hVpos

/-- Witness for C5 at `n = 6`, `bits = 3`, `bits2 = 99`. -/
theorem c5_positive_independent_witness :
    (0 : Int) < 6 ∧
      (convert_to_binary 6 3 = convert_to_binary 6 99 ∧
        binToNat (convert_to_binary 6 3) = (6 : Int).natAbs ∧
        allBin (convert_to_binary 6 3) ∧
        (convert_to_binary 6 3).head? = some '1') :=
  ⟨by decide, c5_positive_independent 6 (by decide) 3 99⟩

/-- C6: for every positive width, `convert_to_binary (-1) bits` is the
string of `bits` ones. -/
theorem c6_minus_one (bits : Nat) (hbits : 1 ≤ bits) :
    convert_to_binary (-1) bits = List.replicate bits '1' := by
  obtain ⟨hlen, hval, hbin⟩ :=
    convert_to_binary_neg_spec (by norm_num : (-1 : Int) < 0) bits
  have hm : (binary_digits ((-1 : Int)).natAbs).length = 1 := by decide
  rw [hm, max_eq_left hbits] at hlen hval
  have hone : ((-1 : Int)).natAbs = 1 := rfl
  rw [hone] at hval
  have hrep := eq_replicate_one hbin (by rw [hval, hlen])
  rw [hlen] at hrep
  exact hrep

/-- Witness for C6 at `bits = 7`. -/
theorem c6_minus_one_witness :
    (1 : Nat) ≤ 7 ∧ convert_to_binary (-1) 7 = List.replicate 7 '1' :=
  ⟨by decide, c6_minus_one 7 (by decide)⟩

/-- C8: the conversion methods leave the object state untouched (no field
of `self` is read or written) and are deterministic: a second call on the
state returned by the first yields the same string. -/
theorem c8_methods_pure (s : NumberConverter) (number : Int) (bits : Nat) :
    (s.convert_to_binary_m number bits).2 = s ∧
      (s.convert_to_hex_m number).2 = s ∧
      ((s.convert_to_binary_m number bits).2.convert_to_binary_m number bits).1
        = (s.convert_to_binary_m number bits).1 ∧
      ((s.convert_to_hex_m number).2.convert_to_hex_m number).1
        = (s.convert_to_hex_m number).1 ∧
      (s.convert_to_binary_m number bits).2.file_path = s.file_path ∧
      (s.convert_to_binary_m number bits).2.data = s.data ∧
      (s.convert_to_binary_m number bits).2.line_errors = s.line_errors :=
  ⟨rfl, rfl, rfl, rfl, rfl, rfl, rfl⟩

/-- C1 counterexample: at `value = -16`, `bits = 2` the magnitude `10000`
has more than `bits` binary digits, and the result keeps all five
characters — it is not truncated back to 2 characters. -/
theorem c1_counterexample :
    convert_to_binary (-16) 2 = ['1', '0', '0', '0', '0'] ∧
      (convert_to_binary (-16) 2).length ≠ 2 := by
  decide

/-- C1 amended: for negative `value` and positive `bits` the result length
is `max bits (length of the magnitude's binary digits)`: it is exactly
`bits` when the magnitude fits in `bits` bits, and strictly more than
`bits` (the full magnitude width — nothing is ever truncated) when the
magnitude needs more than `bits` digits. -/
theorem c1_negative_length (number : Int) (bits : Nat) (hneg : number < 0)
    (_hbits : 1 ≤ bits) :
    (convert_to_binary number bits).length
        = max bits (binary_digits number.natAbs).length ∧
      (number.natAbs < 2 ^ bits → (convert_to_binary number bits).length = bits) ∧
      (2 ^ bits ≤ number.natAbs →
        bits < (convert_to_binary number bits).length) := by
  obtain ⟨hlen, _, _⟩ := convert_to_binary_neg_spec hneg bits
  refine ⟨hlen, ?_, ?_⟩
  · intro h
    rw [hlen, max_eq_left (binary_digits_length_le h)]
  · intro h
    rw [hlen]
    have h1 := lt_two_pow_length number.natAbs
    have hlt : bits < (binary_digits number.natAbs).length := by
      by_contra hcon
      push_neg at hcon
      have h2 : (2 : Nat) ^ (binary_digits number.natAbs).length ≤ 2 ^ bits :=
        Nat.pow_le_pow_right (by norm_num) hcon
      omega
    calc bits < (binary_digits number.natAbs).length := hlt
      _ ≤ max bits (binary_digits number.natAbs).length := le_max_right _ _

/-- Witness for C1's amended statement at `value = -16`, `bits = 2`. -/
theorem c1_negative_length_witness :
    ((-16 : Int) < 0) ∧ (1 : Nat) ≤ 2 ∧
      ((convert_to_binary (-16) 2).length
          = max 2 (binary_digits ((-16 : Int)).natAbs).length ∧
        (((-16 : Int)).natAbs < 2 ^ 2 → (convert_to_binary (-16) 2).length = 2) ∧
        (2 ^ 2 ≤ ((-16 : Int)).natAbs →
          2 < (convert_to_binary (-16) 2).length)) :=
  ⟨by decide, by decide, c1_negative_length (-16) 2 (by decide) (by decide)⟩

/-- C3 counterexample: the magnitude of `-3` is representable in 2 bits
(`3 < 2 ^ 2`), yet `convert_to_binary (-3) 2 = "01"` decodes as a 2-bit
two's-complement number to `1`, not `-3`. -/
theorem c3_counterexample :
    ((-3 : Int)).natAbs < 2 ^ 2 ∧
      convert_to_binary (-3) 2 = ['0', '1'] ∧
      twosDecode (convert_to_binary (-3) 2) = 1 ∧
      twosDecode (convert_to_binary (-3) 2) ≠ -3 := by
  decide

/-- C3 amended: the round-trip law holds on the smaller range
`natAbs n ≤ 2 ^ (bits - 1)` (i.e. `n` itself is representable as a
`bits`-wide two's-complement value): the result has length exactly `bits`
and decodes back to `n`. -/
theorem c3_roundtrip (n : Int) (bits : Nat) (hneg : n < 0) (hbits : 1 ≤ bits)
    (hfit : n.natAbs ≤ 2 ^ (bits - 1)) :
    (convert_to_binary n bits).length = bits ∧
      twosDecode (convert_to_binary n bits) = n := by
  have hV : 0 < n.natAbs := Int.natAbs_pos.mpr (by omega)
  have hhalf : (2 : Nat) ^ (bits - 1) < 2 ^ bits :=
    Nat.pow_lt_pow_right (by norm_num) (by omega)
  have hVlt : n.natAbs < 2 ^ bits := lt_of_le_of_lt hfit hhalf
  have hm := binary_digits_length_le hVlt
  obtain ⟨hlen, hval, _⟩ := convert_to_binary_neg_spec hneg bits
  rw [max_eq_left hm] at hlen hval
  refine ⟨hlen, ?_⟩
  have h2 : (2 : Nat) ^ bits = 2 * 2 ^ (bits - 1) := by
    rw [← pow_succ']
    congr 1
    omega
  have hge : ¬(binToNat (convert_to_binary n bits)
      < 2 ^ ((convert_to_binary n bits).length - 1)) := by
    rw [hval, hlen]
    omega
  rw [twosDecode, if_neg hge, hval, hlen]
  have hcast : ((2 ^ bits - n.natAbs : Nat) : Int)
      = (2 ^ bits : Int) - (n.natAbs : Int) := by
    rw [Nat.cast_sub (le_of_lt hVlt)]
    push_cast
    ring
  have habs : ((n.natAbs : Int)) = -n :=
    Int.ofNat_natAbs_of_nonpos (le_of_lt hneg)
  rw [hcast, habs]
  ring

/-- Witness for C3's amended statement at `n = -3`, `bits = 3`. -/
theorem c3_roundtrip_witness :
    ((-3 : Int) < 0) ∧ (1 : Nat) ≤ 3 ∧ ((-3 : Int)).natAbs ≤ 2 ^ (3 - 1) ∧
      ((convert_to_binary (-3) 3).length = 3 ∧
        twosDecode (convert_to_binary (-3) 3) = -3) :=
  ⟨by decide, by decide, by decide,
    c3_roundtrip (-3) 3 (by decide) (by decide) (by decide)⟩

/-- C2 counterexample: at `n = -(16 ^ 10)` the result has 11 characters,
not 10; and `n = -(2 ^ 40 - 1)` fits in 40 bits yet its encoding decodes
as a 40-bit two's-complement number to `1`, not back to `n`. -/
theorem c2_counterexample :
    (convert_to_hex (-1099511627776)).length = 11 ∧
      (convert_to_hex (-1099511627776)).length ≠ 10 ∧
      ((-1099511627775 : Int)).natAbs < 2 ^ 40 ∧
      hexTwosDecode40 (convert_to_hex (-1099511627775)) = 1 ∧
      hexTwosDecode40 (convert_to_hex (-1099511627775)) ≠ -1099511627775 := by
  decide

/-- C2 amended: for negative `n`, the length is exactly 10 provided the
magnitude needs at most 10 hex digits (`natAbs n < 16 ^ 10`), and the
40-bit two's-complement round-trip holds on the range `natAbs n ≤ 2 ^ 39`
(where `n` is representable as a 40-bit two's-complement value). -/
theorem c2_negative_hex (n : Int) (hneg : n < 0) :
    (n.natAbs < 16 ^ 10 → (convert_to_hex n).length = 10) ∧
      (n.natAbs ≤ 2 ^ 39 → hexTwosDecode40 (convert_to_hex n) = n) := by
  obtain ⟨hlen, hval, _, _⟩ := convert_to_hex_neg_spec hneg
  have hV : 0 < n.natAbs := Int.natAbs_pos.mpr (by omega)
  constructor
  · intro h
    rw [hlen, max_eq_left (hexMag_length_le h)]
  · intro h
    have e39 : (2 : Nat) ^ 39 = 549755813888 := by norm_num
    have e16 : (16 : Nat) ^ 10 = 1099511627776 := by norm_num
    have hlt : n.natAbs < 16 ^ 10 := by omega
    have h10 : (hexMag n.natAbs).length ≤ 10 := hexMag_length_le hlt
    rw [max_eq_left h10] at hlen hval
    have hge : ¬(hexToNat (convert_to_hex n) < 2 ^ 39) := by
      rw [hval]
      omega
    rw [hexTwosDecode40, if_neg hge, hval]
    have hcast : ((16 ^ 10 - n.natAbs : Nat) : Int)
        = (16 ^ 10 : Int) - (n.natAbs : Int) := by
      rw [Nat.cast_sub (le_of_lt hlt)]
      push_cast
      ring
    have habs : ((n.natAbs : Int)) = -n :=
      Int.ofNat_natAbs_of_nonpos (le_of_lt hneg)
    rw [hcast, habs]
    have e2 : (16 : Int) ^ 10 = 2 ^ 40 := by norm_num
    rw [e2]
    ring

/-- Witness for C2's amended statement at `n = -255`. -/
theorem c2_negative_hex_witness :
    ((-255 : Int) < 0) ∧
      ((((-255 : Int)).natAbs < 16 ^ 10 → (convert_to_hex (-255)).length = 10) ∧
        (((-255 : Int)).natAbs ≤ 2 ^ 39 →
          hexTwosDecode40 (convert_to_hex (-255)) = -255)) :=
  ⟨by decide, c2_negative_hex (-255) (by decide)⟩

/-- C7: both conversions are total — the magnitude loops need at most
`natAbs number` iterations, so the fueled variants with any fuel of at
least `natAbs number` succeed and return exactly the strings produced by
`convert_to_binary` and `convert_to_hex`. -/
theorem c7_terminates (number : Int) (bits fuel : Nat)
    (hfuel : number.natAbs ≤ fuel) :
    convert_to_binary_fuel fuel number bits
        = some (convert_to_binary number bits) ∧
      convert_to_hex_fuel fuel number = some (convert_to_hex number) := by
  constructor
  · by_cases h0 : number = 0
    · simp [h0, convert_to_binary_fuel, convert_to_binary]
    · rw [convert_to_binary_fuel, convert_to_binary, if_neg h0, if_neg h0,
        binLoopO_adequate fuel number.natAbs hfuel]
      rfl
  · by_cases h0 : number = 0
    · simp [h0, convert_to_hex_fuel, convert_to_hex]
    · rw [convert_to_hex_fuel, convert_to_hex, if_neg h0, if_neg h0,
        hexLoopO_adequate fuel number.natAbs [] hfuel]
      rfl

/-- Witness for C7 at `number = -37`, `bits = 10`, `fuel = 37`. -/
theorem c7_terminates_witness :
    ((-37 : Int)).natAbs ≤ 37 ∧
      (convert_to_binary_fuel 37 (-37) 10 = some (convert_to_binary (-37) 10) ∧
        convert_to_hex_fuel 37 (-37) = some (convert_to_hex (-37))) :=
  ⟨by decide, c7_terminates (-37) 10 37 (by decide)⟩

/-- C9: on a missing file the constructor raises (and both collections are
empty at that point); on an existing file every line lands in exactly one
collection — the parsed integers, in order, in `data`, and the pairs
`(index, raw line)` of the unparsable lines in `line_errors` — and the two
collection sizes add up to the number of lines. -/
theorem c9_loader (path : String) (lines : List (List Char)) :
    NumberConverter.construct path none
        = (⟨path, [], []⟩, some ("The file " ++ path ++ " does not exist.")) ∧
      (NumberConverter.construct path (some lines)).2 = none ∧
      (NumberConverter.construct path (some lines)).1.file_path = path ∧
      (NumberConverter.construct path (some lines)).1.data
        = lines.filterMap validate_input ∧
      (NumberConverter.construct path (some lines)).1.line_errors
        = (List.enumFrom 0 lines).filter
            (fun p => (validate_input p.2).isNone) ∧
      (NumberConverter.construct path (some lines)).1.data.length
          + (NumberConverter.construct path (some lines)).1.line_errors.length
        = lines.length := by
  refine ⟨rfl, rfl, rfl, ?_, ?_, ?_⟩
  · show (classifyLines 0 lines).1 = _
    rw [classifyLines_eq]
  · show (classifyLines 0 lines).2 = _
    rw [classifyLines_eq]
  · exact classifyLines_length 0 lines

/-- C10: `__add_one_to_hex` returns a string of exactly the length of its
input (a surviving carry is dropped, never appended); hence the final
`rjust` with `'F'` in the negative branch of `convert_to_hex` never
changes the string, and for negative `n` the result length is
`max 10 (number of hex digits of the magnitude)`. -/
theorem c10_hex_add_one_length (s : List Char) (_hhex : allHex s) (n : Int)
    (hneg : n < 0) :
    (add_one_to_hex s).length = s.length ∧
      rjust (add_one_to_hex (invert_hex (rjust (hexMag n.natAbs) 10 '0'))) 10 'F'
        = add_one_to_hex (invert_hex (rjust (hexMag n.natAbs) 10 '0')) ∧
      (convert_to_hex n).length = max 10 (hexMag n.natAbs).length := by
  obtain ⟨hlen, _, _, hrj⟩ := convert_to_hex_neg_spec hneg
  exact ⟨add_one_to_hex_length s, hrj, hlen⟩

/-- Witness for C10 at `s = "FF"`, `n = -255`. -/
theorem c10_hex_add_one_length_witness :
    allHex ['F', 'F'] ∧ ((-255 : Int) < 0) ∧
      ((add_one_to_hex ['F', 'F']).length = (['F', 'F'] : List Char).length ∧
        rjust (add_one_to_hex (invert_hex
            (rjust (hexMag ((-255 : Int)).natAbs) 10 '0'))) 10 'F'
          = add_one_to_hex (invert_hex
              (rjust (hexMag ((-255 : Int)).natAbs) 10 '0')) ∧
        (convert_to_hex (-255)).length
          = max 10 (hexMag ((-255 : Int)).natAbs).length) :=
  ⟨by unfold allHex; decide, by decide,
    c10_hex_add_one_length ['F', 'F'] (by unfold allHex; decide) (-255)
      (by decide)⟩
